import Mathlib

/-!
Verification of the BIDS post-processing core
(`src/data_to_bids/post_process_core.py`).

Python strings are modelled as `List Char`; the filesystem objects the
passes touch are modelled per directory / per file:
an fmap directory is a list of entries `(name, isDir)`, a scans table is
a header plus rows of string cells, a JSON sidecar is an ordered
association list of keys and values.  Each definition below translates
one function (or one loop body) of the source file; doc comments name
the source lines.
-/

/-- Python strings, modelled as lists of characters. -/
abbrev Str := List Char

/-- Python `s.startswith(p)` / the prefix test used by `str.replace`:
`isPre p s` is true iff `p` is a prefix of `s`. -/
def isPre : Str → Str → Bool
  | [], _ => true
  | _ :: _, [] => false
  | p :: ps, s :: ss => if p = s then isPre ps ss else false

/-- Python `p in s` (substring containment), scanning left to right. -/
def containsS (q : Str) : Str → Bool
  | [] => isPre q []
  | c :: rest => isPre q (c :: rest) || containsS q rest

/-- Fuel-indexed core of Python `s.replace(p, r)`: replaces every
non-overlapping occurrence of `p` left to right.  The fuel is only a
structural-recursion device; `fuel ≥ s.length` makes it total. -/
def raF (p r : Str) : Nat → Str → Str
  | 0, s => s
  | _ + 1, [] => []
  | fuel + 1, c :: rest =>
    if isPre p (c :: rest) then r ++ raF p r fuel (rest.drop (p.length - 1))
    else c :: raF p r fuel rest

/-- Python `s.replace(p, r)` for nonempty `p`. -/
def replaceAll (p r s : Str) : Str := raF p r s.length s

/-- The legacy token `fieldmap1` (source line 86). -/
def pat1 : Str := ['f', 'i', 'e', 'l', 'd', 'm', 'a', 'p', '1']

/-- Its replacement `magnitude` (source line 87). -/
def rep1 : Str := ['m', 'a', 'g', 'n', 'i', 't', 'u', 'd', 'e']

/-- The legacy token `fieldmap2` (source line 88). -/
def pat2 : Str := ['f', 'i', 'e', 'l', 'd', 'm', 'a', 'p', '2']

/-- Its replacement `fieldmap` (source line 89). -/
def rep2 : Str := ['f', 'i', 'e', 'l', 'd', 'm', 'a', 'p']

/-- The string `fieldmap21`: replacing `fieldmap2` by `fieldmap` inside
it leaves a trailing `1` and manufactures a fresh `fieldmap1` token. -/
def pat21 : Str := ['f', 'i', 'e', 'l', 'd', 'm', 'a', 'p', '2', '1']

/-- The string `fieldmap22`, the analogous self-recreating pattern for
`fieldmap2`. -/
def pat22 : Str := ['f', 'i', 'e', 'l', 'd', 'm', 'a', 'p', '2', '2']

@[simp] theorem isPre_nil_left (s : Str) : isPre [] s = true := by
  cases s <;> rfl

@[simp] theorem isPre_cons_nil (p : Char) (ps : Str) : isPre (p :: ps) [] = false := rfl

theorem isPre_cons_cons (p s : Char) (ps ss : Str) :
    isPre (p :: ps) (s :: ss) = if p = s then isPre ps ss else false := rfl

theorem isPre_append_self (p t : Str) : isPre p (p ++ t) = true := by
  induction p with
  | nil => simp
  | cons c cs ih => simpa [isPre_cons_cons] using ih

theorem isPre_length_le {p s : Str} (h : isPre p s = true) : p.length ≤ s.length := by
  induction p generalizing s with
  | nil => simp
  | cons c cs ih =>
    cases s with
    | nil => simp at h
    | cons d ds =>
      rw [isPre_cons_cons] at h
      split at h
      · simpa using ih h
      · simp at h

theorem isPre_append_split {a b q : Str} (h : isPre q (a ++ b) = true) :
    isPre q a = true ∨ (isPre a q = true ∧ isPre (q.drop a.length) b = true) := by
  induction a generalizing q with
  | nil => exact Or.inr ⟨by simp, by simpa using h⟩
  | cons c cs ih =>
    cases q with
    | nil => exact Or.inl (by simp)
    | cons d ds =>
      rw [List.cons_append, isPre_cons_cons] at h
      split at h
      · rcases ih h with h1 | ⟨h2, h3⟩
        · exact Or.inl (by rw [isPre_cons_cons]; simp_all)
        · refine Or.inr ⟨by rw [isPre_cons_cons]; simp_all, ?_⟩
          simpa using h3
      · simp at h

theorem isPre_append_of {a b s : Str} (h1 : isPre a s = true)
    (h2 : isPre b (s.drop a.length) = true) : isPre (a ++ b) s = true := by
  induction a generalizing s with
  | nil => simpa using h2
  | cons c cs ih =>
    cases s with
    | nil => simp at h1
    | cons d ds =>
      rw [isPre_cons_cons] at h1
      split at h1
      · rw [List.cons_append, isPre_cons_cons]
        simp only [List.length_cons, List.drop_succ_cons] at h2
        simp_all [ih h1 h2]
      · simp at h1

theorem isPre_trans {a b s : Str} (h1 : isPre a b = true) (h2 : isPre b s = true) :
    isPre a s = true := by
  induction a generalizing b s with
  | nil => simp
  | cons c cs ih =>
    cases b with
    | nil => simp at h1
    | cons d ds =>
      cases s with
      | nil => simp at h2
      | cons e es =>
        rw [isPre_cons_cons] at h1 h2 ⊢
        split at h1
        · split at h2
          · simp_all [ih h1 h2]
          · simp at h2
        · simp at h1

@[simp] theorem containsS_nil (q : Str) : containsS q [] = isPre q [] := rfl

theorem containsS_cons (q : Str) (c : Char) (rest : Str) :
    containsS q (c :: rest) = (isPre q (c :: rest) || containsS q rest) := rfl

theorem containsS_of_isPre {q s : Str} (h : isPre q s = true) : containsS q s = true := by
  cases s with
  | nil =>
    cases q with
    | nil => rfl
    | cons c cs => simp at h
  | cons c rest => simp [containsS_cons, h]

theorem containsS_of_tail {q : Str} {c : Char} {rest : Str}
    (h : containsS q rest = true) : containsS q (c :: rest) = true := by
  simp [containsS_cons, h]

theorem containsS_of_drop {q s : Str} {n : Nat}
    (h : containsS q (s.drop n) = true) : containsS q s = true := by
  induction n generalizing s with
  | zero => simpa using h
  | succ m ih =>
    cases s with
    | nil => simpa using h
    | cons c rest =>
      rw [List.drop_succ_cons] at h
      exact containsS_of_tail (ih h)

theorem containsS_drop_eq_false {q s : Str} {n : Nat}
    (h : containsS q s = false) : containsS q (s.drop n) = false := by
  by_contra hc
  rw [Bool.not_eq_false] at hc
  rw [containsS_of_drop hc] at h
  simp at h

theorem containsS_tail_eq_false {q : Str} {c : Char} {rest : Str}
    (h : containsS q (c :: rest) = false) : containsS q rest = false := by
  by_contra hc
  rw [Bool.not_eq_false] at hc
  rw [containsS_of_tail hc] at h
  simp at h

theorem isPre_eq_false_of_containsS {q s : Str}
    (h : containsS q s = false) : isPre q s = false := by
  by_contra hc
  rw [Bool.not_eq_false] at hc
  rw [containsS_of_isPre hc] at h
  simp at h

theorem containsS_append_split {q a b : Str} (h : containsS q (a ++ b) = true) :
    containsS q a = true ∨ containsS q b = true ∨
      ∃ i, i < a.length ∧ isPre (a.drop i) q = true ∧
        isPre (q.drop (a.length - i)) b = true := by
  induction a generalizing q with
  | nil => exact Or.inr (Or.inl (by simpa using h))
  | cons c cs ih =>
    rw [List.cons_append, containsS_cons, Bool.or_eq_true] at h
    rcases h with h | h
    · rcases isPre_append_split (a := c :: cs) h with h1 | ⟨h2, h3⟩
      · exact Or.inl (containsS_of_isPre h1)
      · exact Or.inr (Or.inr ⟨0, by simp, by simpa using h2, by simpa using h3⟩)
    · rcases ih h with h1 | h1 | ⟨i, hi, h2, h3⟩
      · exact Or.inl (containsS_of_tail h1)
      · exact Or.inr (Or.inl h1)
      · refine Or.inr (Or.inr ⟨i + 1, by simpa using hi, by simpa using h2, ?_⟩)
        have : (c :: cs).length - (i + 1) = cs.length - i := by simp
        rw [this]
        exact h3

theorem containsS_of_isPre_ext {a b s : Str} (hab : isPre a b = true)
    (h : containsS b s = true) : containsS a s = true := by
  induction s with
  | nil =>
    cases b with
    | nil =>
      cases a with
      | nil => rfl
      | cons c cs => simp at hab
    | cons c cs => simp at h
  | cons c rest ih =>
    rw [containsS_cons, Bool.or_eq_true] at h
    rcases h with h | h
    · exact containsS_of_isPre (isPre_trans hab h)
    · exact containsS_of_tail (ih h)

@[simp] theorem raF_zero (p r : Str) (s : Str) : raF p r 0 s = s := rfl

@[simp] theorem raF_succ_nil (p r : Str) (fuel : Nat) : raF p r (fuel + 1) [] = [] := rfl

theorem raF_succ_cons (p r : Str) (fuel : Nat) (c : Char) (rest : Str) :
    raF p r (fuel + 1) (c :: rest) =
      if isPre p (c :: rest) then r ++ raF p r fuel (rest.drop (p.length - 1))
      else c :: raF p r fuel rest := rfl

theorem or_eq_false_of {a b : Bool} (ha : a = false) (hb : b = false) :
    (a || b) = false := by subst ha; subst hb; rfl

theorem raF_of_not_contains {p r : Str} :
    ∀ (fuel : Nat) (s : Str), containsS p s = false → raF p r fuel s = s := by
  intro fuel
  induction fuel with
  | zero => intro s _; rfl
  | succ f ih =>
    intro s h
    cases s with
    | nil => rfl
    | cons c rest =>
      rw [raF_succ_cons, if_neg, ih rest (containsS_tail_eq_false h)]
      rw [isPre_eq_false_of_containsS h]
      simp

theorem replaceAll_of_not_contains {p r s : Str} (h : containsS p s = false) :
    replaceAll p r s = s := raF_of_not_contains s.length s h

/-- Structure of a nonempty prefix `v` of the output of `raF` that is NOT a
prefix of the input `s`: the first `j` characters of `v` copy untouched input
characters, and at position `j` a replacement block `r` begins, which means
the pattern `p` matched the input at position `j`. -/
theorem raF_isPre_split {p r : Str} :
    ∀ (fuel : Nat) (s v : Str), s.length ≤ fuel → v ≠ [] →
      isPre v (raF p r fuel s) = true → isPre v s = false →
      ∃ j, j < v.length ∧
        (isPre (v.drop j) r = true ∨ isPre r (v.drop j) = true) ∧
        isPre (v.take j) s = true ∧ isPre p (s.drop j) = true := by
  intro fuel
  induction fuel with
  | zero =>
    intro s v hle hne hv _
    have hs : s = [] := List.length_eq_zero.mp (Nat.le_zero.mp hle)
    subst hs
    rw [raF_zero] at hv
    cases v with
    | nil => exact absurd rfl hne
    | cons d v' => simp at hv
  | succ f ih =>
    intro s v hle hne hv hvs
    cases s with
    | nil =>
      rw [raF_succ_nil] at hv
      cases v with
      | nil => exact absurd rfl hne
      | cons d v' => simp at hv
    | cons c rest =>
      rw [raF_succ_cons] at hv
      by_cases hm : isPre p (c :: rest) = true
      · rw [if_pos hm] at hv
        rcases isPre_append_split hv with h1 | ⟨h1, _⟩
        · refine ⟨0, by simpa using List.length_pos.mpr hne, Or.inl (by simpa using h1),
            by simp, by simpa using hm⟩
        · refine ⟨0, by simpa using List.length_pos.mpr hne, Or.inr (by simpa using h1),
            by simp, by simpa using hm⟩
      · rw [if_neg hm] at hv
        rw [Bool.not_eq_true] at hm
        cases v with
        | nil => exact absurd rfl hne
        | cons d v' =>
          by_cases hdc : d = c
          · rw [isPre_cons_cons, if_pos hdc] at hv
            subst hdc
            cases v' with
            | nil =>
              rw [show isPre [d] (d :: rest) = true by rw [isPre_cons_cons]; simp] at hvs
              simp at hvs
            | cons e v'' =>
              by_cases hvr : isPre (e :: v'') rest = true
              · rw [show isPre (d :: e :: v'') (d :: rest) = isPre (e :: v'') rest from
                  by rw [isPre_cons_cons]; simp, hvr] at hvs
                simp at hvs
              · have hlen : rest.length ≤ f := by simpa using hle
                rcases ih rest (e :: v'') hlen (by simp) hv
                    (Bool.not_eq_true _ ▸ hvr) with ⟨j, hj, hd, ht, hp⟩
                refine ⟨j + 1, by simpa using hj, by simpa using hd, ?_, by simpa using hp⟩
                rw [List.take_succ_cons, isPre_cons_cons]
                simpa using ht
          · rw [isPre_cons_cons, if_neg hdc] at hv
            simp at hv

/-- Replacing `fieldmap1` by `magnitude` leaves no occurrence of `fieldmap1`:
no suffix of `magnitude` can start an occurrence, and no occurrence can
straddle a replacement block. -/
theorem not_contains_pat1_raF1 :
    ∀ (fuel : Nat) (s : Str), s.length ≤ fuel →
      containsS pat1 (raF pat1 rep1 fuel s) = false := by
  intro fuel
  induction fuel with
  | zero =>
    intro s hle
    have hs : s = [] := List.length_eq_zero.mp (Nat.le_zero.mp hle)
    subst hs
    decide
  | succ f ih =>
    intro s hle
    cases s with
    | nil => rw [raF_succ_nil]; decide
    | cons c rest =>
      rw [raF_succ_cons]
      by_cases hm : isPre pat1 (c :: rest) = true
      · rw [if_pos hm]
        by_contra hc
        rw [Bool.not_eq_false] at hc
        rcases containsS_append_split hc with h1 | h1 | ⟨i, hi, h2, _⟩
        · exact absurd h1 (by decide)
        · have hlen : (rest.drop (pat1.length - 1)).length ≤ f := by
            simp only [List.length_drop]
            have : rest.length ≤ f := by simpa using hle
            omega
          rw [ih _ hlen] at h1
          simp at h1
        · have hall : ∀ i < 9, isPre (rep1.drop i) pat1 = false := by decide
          rw [show rep1.length = 9 from rfl] at hi
          rw [hall i hi] at h2
          simp at h2
      · rw [if_neg hm]
        refine or_eq_false_of ?_ (ih rest (by simpa using hle))
        by_contra hc
        rw [Bool.not_eq_false] at hc
        have hout : isPre pat1 (raF pat1 rep1 (f + 1) (c :: rest)) = true := by
          rw [raF_succ_cons, if_neg hm]
          exact hc
        rcases raF_isPre_split (f + 1) (c :: rest) pat1 hle (by decide) hout
            (Bool.not_eq_true _ ▸ hm) with ⟨j, hj, hd, _, _⟩
        have hall : ∀ j < 9, (isPre (pat1.drop j) rep1 = false ∧
            isPre rep1 (pat1.drop j) = false) := by decide
        rw [show pat1.length = 9 from rfl] at hj
        rcases hd with hd | hd
        · rw [(hall j hj).1] at hd; simp at hd
        · rw [(hall j hj).2] at hd; simp at hd

/-- Replacing `fieldmap1` by `magnitude` cannot manufacture an occurrence of
`fieldmap2`: if the input had none, the output has none. -/
theorem not_contains_pat2_raF1 :
    ∀ (fuel : Nat) (s : Str), s.length ≤ fuel → containsS pat2 s = false →
      containsS pat2 (raF pat1 rep1 fuel s) = false := by
  intro fuel
  induction fuel with
  | zero =>
    intro s hle _
    have hs : s = [] := List.length_eq_zero.mp (Nat.le_zero.mp hle)
    subst hs
    decide
  | succ f ih =>
    intro s hle hs2
    cases s with
    | nil => rw [raF_succ_nil]; decide
    | cons c rest =>
      rw [raF_succ_cons]
      by_cases hm : isPre pat1 (c :: rest) = true
      · rw [if_pos hm]
        by_contra hc
        rw [Bool.not_eq_false] at hc
        rcases containsS_append_split hc with h1 | h1 | ⟨i, hi, h2, _⟩
        · exact absurd h1 (by decide)
        · have hlen : (rest.drop (pat1.length - 1)).length ≤ f := by
            simp only [List.length_drop]
            have : rest.length ≤ f := by simpa using hle
            omega
          rw [ih _ hlen (containsS_drop_eq_false (containsS_tail_eq_false hs2))] at h1
          simp at h1
        · have hall : ∀ i < 9, isPre (rep1.drop i) pat2 = false := by decide
          rw [show rep1.length = 9 from rfl] at hi
          rw [hall i hi] at h2
          simp at h2
      · rw [if_neg hm]
        refine or_eq_false_of ?_ (ih rest (by simpa using hle) (containsS_tail_eq_false hs2))
        by_contra hc
        rw [Bool.not_eq_false] at hc
        have hout : isPre pat2 (raF pat1 rep1 (f + 1) (c :: rest)) = true := by
          rw [raF_succ_cons, if_neg hm]
          exact hc
        rcases raF_isPre_split (f + 1) (c :: rest) pat2 hle (by decide) hout
            (isPre_eq_false_of_containsS hs2) with ⟨j, hj, hd, _, _⟩
        have hall : ∀ j < 9, (isPre (pat2.drop j) rep1 = false ∧
            isPre rep1 (pat2.drop j) = false) := by decide
        rw [show pat2.length = 9 from rfl] at hj
        rcases hd with hd | hd
        · rw [(hall j hj).1] at hd; simp at hd
        · rw [(hall j hj).2] at hd; simp at hd

/-- Replacing `fieldmap2` by `fieldmap` leaves no occurrence of `fieldmap1`,
provided the input contained neither `fieldmap1` nor `fieldmap21` (the one
string whose replacement manufactures a fresh `fieldmap1`). -/
theorem not_contains_pat1_raF2 :
    ∀ (fuel : Nat) (s : Str), s.length ≤ fuel → containsS pat1 s = false →
      containsS pat21 s = false →
      containsS pat1 (raF pat2 rep2 fuel s) = false := by
  intro fuel
  induction fuel with
  | zero =>
    intro s hle _ _
    have hs : s = [] := List.length_eq_zero.mp (Nat.le_zero.mp hle)
    subst hs
    decide
  | succ f ih =>
    intro s hle hs1 hs21
    cases s with
    | nil => rw [raF_succ_nil]; decide
    | cons c rest =>
      rw [raF_succ_cons]
      by_cases hm : isPre pat2 (c :: rest) = true
      · rw [if_pos hm]
        have hlen : (rest.drop (pat2.length - 1)).length ≤ f := by
          simp only [List.length_drop]
          have : rest.length ≤ f := by simpa using hle
          omega
        by_contra hc
        rw [Bool.not_eq_false] at hc
        rcases containsS_append_split hc with h1 | h1 | ⟨i, hi, h2, h3⟩
        · exact absurd h1 (by decide)
        · rw [ih _ hlen (containsS_drop_eq_false (containsS_tail_eq_false hs1))
              (containsS_drop_eq_false (containsS_tail_eq_false hs21))] at h1
          simp at h1
        · have hall : ∀ i < 8, isPre (rep2.drop i) pat1 = true → i = 0 := by decide
          rw [show rep2.length = 8 from rfl] at hi
          have hi0 := hall i hi h2
          subst hi0
          rw [show pat1.drop (rep2.length - 0) = ['1'] from rfl] at h3
          by_cases h1p : isPre ['1'] (rest.drop (pat2.length - 1)) = true
          · have h9 : isPre ['1'] ((c :: rest).drop pat2.length) = true := h1p
            have h21 : isPre pat21 (c :: rest) = true := by
              have := isPre_append_of hm h9
              rw [show pat2 ++ ['1'] = pat21 from rfl] at this
              exact this
            rw [containsS_of_isPre h21] at hs21
            simp at hs21
          · rcases raF_isPre_split f (rest.drop (pat2.length - 1)) ['1'] hlen (by decide)
                h3 (Bool.not_eq_true _ ▸ h1p) with ⟨j, hj, hd, _, _⟩
            have hj0 : j = 0 := by simpa using Nat.lt_one_iff.mp (by simpa using hj)
            subst hj0
            rcases hd with hd | hd
            · exact absurd hd (by decide)
            · exact absurd hd (by decide)
      · rw [if_neg hm]
        refine or_eq_false_of ?_ (ih rest (by simpa using hle)
          (containsS_tail_eq_false hs1) (containsS_tail_eq_false hs21))
        by_contra hc
        rw [Bool.not_eq_false] at hc
        have hout : isPre pat1 (raF pat2 rep2 (f + 1) (c :: rest)) = true := by
          rw [raF_succ_cons, if_neg hm]
          exact hc
        rcases raF_isPre_split (f + 1) (c :: rest) pat1 hle (by decide) hout
            (isPre_eq_false_of_containsS hs1) with ⟨j, hj, hd, _, hp⟩
        have hall : ∀ j < 9, (isPre (pat1.drop j) rep2 = true ∨
            isPre rep2 (pat1.drop j) = true) → j = 0 := by decide
        rw [show pat1.length = 9 from rfl] at hj
        have hj0 := hall j hj hd
        subst hj0
        rw [List.drop_zero] at hp
        exact absurd hp hm

/-- Replacing `fieldmap2` by `fieldmap` leaves no occurrence of `fieldmap2`,
provided the input did not contain `fieldmap22` (the one string whose
replacement manufactures a fresh `fieldmap2`). -/
theorem not_contains_pat2_raF2 :
    ∀ (fuel : Nat) (s : Str), s.length ≤ fuel → containsS pat22 s = false →
      containsS pat2 (raF pat2 rep2 fuel s) = false := by
  intro fuel
  induction fuel with
  | zero =>
    intro s hle _
    have hs : s = [] := List.length_eq_zero.mp (Nat.le_zero.mp hle)
    subst hs
    decide
  | succ f ih =>
    intro s hle hs22
    cases s with
    | nil => rw [raF_succ_nil]; decide
    | cons c rest =>
      rw [raF_succ_cons]
      by_cases hm : isPre pat2 (c :: rest) = true
      · rw [if_pos hm]
        have hlen : (rest.drop (pat2.length - 1)).length ≤ f := by
          simp only [List.length_drop]
          have : rest.length ≤ f := by simpa using hle
          omega
        by_contra hc
        rw [Bool.not_eq_false] at hc
        rcases containsS_append_split hc with h1 | h1 | ⟨i, hi, h2, h3⟩
        · exact absurd h1 (by decide)
        · rw [ih _ hlen (containsS_drop_eq_false (containsS_tail_eq_false hs22))] at h1
          simp at h1
        · have hall : ∀ i < 8, isPre (rep2.drop i) pat2 = true → i = 0 := by decide
          rw [show rep2.length = 8 from rfl] at hi
          have hi0 := hall i hi h2
          subst hi0
          rw [show pat2.drop (rep2.length - 0) = ['2'] from rfl] at h3
          by_cases h2p : isPre ['2'] (rest.drop (pat2.length - 1)) = true
          · have h9 : isPre ['2'] ((c :: rest).drop pat2.length) = true := h2p
            have h22 : isPre pat22 (c :: rest) = true := by
              have := isPre_append_of hm h9
              rw [show pat2 ++ ['2'] = pat22 from rfl] at this
              exact this
            rw [containsS_of_isPre h22] at hs22
            simp at hs22
          · rcases raF_isPre_split f (rest.drop (pat2.length - 1)) ['2'] hlen (by decide)
                h3 (Bool.not_eq_true _ ▸ h2p) with ⟨j, hj, hd, _, _⟩
            have hj0 : j = 0 := by simpa using Nat.lt_one_iff.mp (by simpa using hj)
            subst hj0
            rcases hd with hd | hd
            · exact absurd hd (by decide)
            · exact absurd hd (by decide)
      · rw [if_neg hm]
        refine or_eq_false_of ?_ (ih rest (by simpa using hle)
          (containsS_tail_eq_false hs22))
        by_contra hc
        rw [Bool.not_eq_false] at hc
        have hout : isPre pat2 (raF pat2 rep2 (f + 1) (c :: rest)) = true := by
          rw [raF_succ_cons, if_neg hm]
          exact hc
        rcases raF_isPre_split (f + 1) (c :: rest) pat2 hle (by decide) hout
            (Bool.not_eq_true _ ▸ hm) with ⟨j, hj, hd, _, hp⟩
        have hall : ∀ j < 9, (isPre (pat2.drop j) rep2 = true ∨
            isPre rep2 (pat2.drop j) = true) → j = 0 := by decide
        rw [show pat2.length = 9 from rfl] at hj
        have hj0 := hall j hj hd
        subst hj0
        rw [List.drop_zero] at hp
        exact absurd hp hm

theorem replaceAll_no_pat1_of_pat1 (s : Str) :
    containsS pat1 (replaceAll pat1 rep1 s) = false :=
  not_contains_pat1_raF1 s.length s (Nat.le_refl _)

theorem replaceAll_no_pat2_of_pat1 {s : Str} (h : containsS pat2 s = false) :
    containsS pat2 (replaceAll pat1 rep1 s) = false :=
  not_contains_pat2_raF1 s.length s (Nat.le_refl _) h

theorem replaceAll_no_pat1_of_pat2 {s : Str} (h1 : containsS pat1 s = false)
    (h21 : containsS pat21 s = false) :
    containsS pat1 (replaceAll pat2 rep2 s) = false :=
  not_contains_pat1_raF2 s.length s (Nat.le_refl _) h1 h21

theorem replaceAll_no_pat2_of_pat2 {s : Str} (h22 : containsS pat22 s = false) :
    containsS pat2 (replaceAll pat2 rep2 s) = false :=
  not_contains_pat2_raF2 s.length s (Nat.le_refl _) h22

/-- The prefix `sub-` (source line 34). -/
def subPre : Str := ['s', 'u', 'b', '-']

/-- The prefix `ses-` (source lines 38 and 54). -/
def sesPre : Str := ['s', 'e', 's', '-']

/-- `normalize_subject` (source lines 33-34): prepend `sub-` unless present. -/
def normalize_subject (s : Str) : Str := if isPre subPre s then s else subPre ++ s

/-- `normalize_session` (source lines 37-38): prepend `ses-` unless present. -/
def normalize_session (s : Str) : Str := if isPre sesPre s then s else sesPre ++ s

/-- Lexicographic comparison of strings by code point, as Python `sorted` uses. -/
def strLe : Str → Str → Bool
  | [], _ => true
  | _ :: _, [] => false
  | a :: as, b :: bs => if a.toNat = b.toNat then strLe as bs else decide (a.toNat < b.toNat)

/-- Insert into a sorted list of strings. -/
def insertStr (x : Str) : List Str → List Str
  | [] => [x]
  | y :: ys => if strLe x y then x :: y :: ys else y :: insertStr x ys

/-- Python `sorted` on a list of strings (insertion sort; stable and
lexicographic, which is all the source relies on). -/
def sortStr : List Str → List Str
  | [] => []
  | x :: xs => insertStr x (sortStr xs)

/-- A directory entry: a name together with whether it is a subdirectory.
`os.listdir` order is irrelevant because the source always sorts. -/
abbrev Entry := Str × Bool

/-- The names present in a directory. -/
def namesOf (st : List Entry) : List Str := st.map Prod.fst

/-- `os.path.exists` inside the modelled directory (source line 95). -/
def existsName (st : List Entry) (n : Str) : Bool := st.any (fun e => decide (e.1 = n))

/-- `os.path.isfile` inside the modelled directory (source line 83). -/
def isFileN (st : List Entry) (n : Str) : Bool :=
  st.any (fun e => decide (e.1 = n) && !e.2)

/-- `os.path.isdir` inside the modelled directory (source lines 49 and 55). -/
def isDirN (st : List Entry) (n : Str) : Bool :=
  st.any (fun e => decide (e.1 = n) && e.2)

/-- Effect of `os.rename` on the directory listing: the entry named `n`
disappears (names are unique in a real directory, so removing the first
suffices). -/
def eraseName : List Entry → Str → List Entry
  | [], _ => []
  | e :: rest, n => if e.1 = n then rest else e :: eraseName rest n

/-- The explicit-list branch of `iter_session_paths` (source lines 46-52):
first component = yielded session directories, second = sessions reported
as missing (the `print` branch). -/
def iterExplicit (entries : List Entry) : List Str → List Str × List Str
  | [] => ([], [])
  | s :: rest =>
    let p := iterExplicit entries rest
    if isDirN entries s then (s :: p.1, p.2) else (p.1, s :: p.2)

/-- The discovery branch of `iter_session_paths` (source lines 53-56):
`sorted(glob.glob(os.path.join(subject_path, "ses-*")))` filtered by
`os.path.isdir`.  `glob` matches entries of either kind whose name starts
with `ses-` (names starting with `ses-` are never hidden). -/
def autoDiscover (entries : List Entry) : List Str :=
  (sortStr ((entries.filter (fun e => isPre sesPre e.1)).map Prod.fst)).filter
    (fun n => isDirN entries n)

/-- `iter_session_paths` (source lines 41-56).  Python's `if sessions_filter:`
is falsy both for `None` and for an empty list. -/
def iter_session_paths (entries : List Entry) (sessions_filter : Option (List Str)) :
    List Str × List Str :=
  match sessions_filter with
  | some l => if l.isEmpty then (autoDiscover entries, []) else iterExplicit entries l
  | none => (autoDiscover entries, [])

/-- The per-file renaming rule of `rename_fieldmap_files` (source lines
86-91): `fieldmap1` takes precedence over `fieldmap2` via `elif`; `none`
means the file is left untouched. -/
def newName (filename : Str) : Option Str :=
  if containsS pat1 filename then some (replaceAll pat1 rep1 filename)
  else if containsS pat2 filename then some (replaceAll pat2 rep2 filename)
  else none

/-- One iteration of the rename loop (source lines 81-103) against the live
directory state: skip non-files, compute the new name, skip on collision,
skip in dry-run mode, otherwise rename. -/
def renameStep (dry : Bool) (st : List Entry) (filename : Str) : List Entry :=
  if isFileN st filename then
    match newName filename with
    | none => st
    | some dst =>
      if existsName st dst then st
      else if dry then st
      else (dst, false) :: eraseName st filename
  else st

/-- The rename pass over one fmap directory (source lines 81-103): iterate
over the sorted initial listing while the directory state evolves. -/
def rename_fieldmap_files_dir (dry : Bool) (st : List Entry) : List Entry :=
  (sortStr (namesOf st)).foldl (renameStep dry) st

/-- `rename_fieldmap_files` (source lines 59-103) on the fmap directories of
a tree; each fmap directory is processed independently and renames never
leave their directory. -/
def rename_fieldmap_files (dry : Bool) (tree : List (List Entry)) : List (List Entry) :=
  tree.map (rename_fieldmap_files_dir dry)

/-- An OS-level rename failure, carrying source and destination. -/
inductive RenameError where
  | osError (src dst : Str)

/-- One iteration of the rename loop refined with an oracle `ok` telling
which `os.rename` calls succeed; the source wraps `os.rename` in no
`try`/`except`, so a failure propagates as an exception (source line 103). -/
def renameStepE (ok : Str → Str → Bool) (dry : Bool) (st : List Entry) (filename : Str) :
    Except RenameError (List Entry) :=
  if isFileN st filename then
    match newName filename with
    | none => Except.ok st
    | some dst =>
      if existsName st dst then Except.ok st
      else if dry then Except.ok st
      else if ok filename dst then Except.ok ((dst, false) :: eraseName st filename)
      else Except.error (RenameError.osError filename dst)
  else Except.ok st

/-- The rename loop over a list of file names with the failure oracle:
an uncaught exception aborts the remaining iterations. -/
def renameListE (ok : Str → Str → Bool) (dry : Bool) (st : List Entry)
    (names : List Str) : Except RenameError (List Entry) :=
  names.foldlM (renameStepE ok dry) st

/-- The column name `filename` (source line 128). -/
def fnameKey : Str := ['f', 'i', 'l', 'e', 'n', 'a', 'm', 'e']

/-- A parsed scans table: header row plus data rows of string cells, as
`pandas.read_csv(..., sep="\t")` / `to_csv` round-trips them. -/
structure Table where
  header : List Str
  rows : List (List Str)
deriving DecidableEq

/-- The substitution applied to each `filename` cell (source lines 134-135):
first `fieldmap1 -> magnitude`, then `fieldmap2 -> fieldmap`. -/
def replaceCell (s : Str) : Str := replaceAll pat2 rep2 (replaceAll pat1 rep1 s)

/-- The per-file body of `update_scans_tsv` (source lines 126-147): locate
the `filename` column, substitute in that column only, skip the write when
nothing changed or in dry-run mode.  The Bool records whether the file was
written back. -/
def update_scans_tsv_file (dry : Bool) (t : Table) : Table × Bool :=
  match t.header.findIdx? (fun h => decide (h = fnameKey)) with
  | none => (t, false)
  | some i =>
    let rows2 := t.rows.map (fun row => row.set i (replaceCell (row.getD i [])))
    if rows2 = t.rows then (t, false)
    else if dry then (t, false)
    else ({ header := t.header, rows := rows2 }, true)

/-- JSON values as far as `update_fieldmap_json` distinguishes them.  The
two keys the pass owns hold a list of strings (`IntendedFor`) and a string
(`B0FieldIdentifier`); every other value is only ever copied and compared
for equality, never inspected, so the exact universe of representable
values does not affect the pass's behaviour. -/
inductive JVal where
  | str (s : Str)
  | num (n : Int)
  | bool (b : Bool)
  | null
  | strArr (xs : List Str)
deriving DecidableEq

/-- The key `IntendedFor` (source line 201). -/
def keyIF : Str := ['I', 'n', 't', 'e', 'n', 'd', 'e', 'd', 'F', 'o', 'r']

/-- The key `B0FieldIdentifier` (source line 202). -/
def keyB0 : Str :=
  ['B', '0', 'F', 'i', 'e', 'l', 'd', 'I', 'd', 'e', 'n', 't', 'i', 'f', 'i', 'e', 'r']

/-- Key lookup in a JSON object (first occurrence; `json.load` produces
duplicate-free key lists). -/
def getKey : List (Str × JVal) → Str → Option JVal
  | [], _ => none
  | e :: rest, k => if e.1 = k then some e.2 else getKey rest k

/-- Python dict item assignment `d[k] = v`: overwrite in place if the key
exists, append otherwise. -/
def setKey : List (Str × JVal) → Str → JVal → List (Str × JVal)
  | [], k, v => [(k, v)]
  | e :: rest, k, v => if e.1 = k then (k, v) :: rest else e :: setKey rest k v

/-- `new_data` of `update_fieldmap_json` (source lines 200-202): the copy
of the document with `IntendedFor` and `B0FieldIdentifier` assigned. -/
def newSidecarData (doc : List (Str × JVal)) (intendedFor : List Str)
    (b0 : Str) : List (Str × JVal) :=
  setKey (setKey doc keyIF (JVal.strArr intendedFor)) keyB0 (JVal.str b0)

/-- The per-sidecar body of `update_fieldmap_json` (source lines 196-213):
copy the document, set the two owned keys, skip the write when the result
equals the original or in dry-run mode.  The Bool records whether the file
was written back. -/
def update_fieldmap_json_doc (dry : Bool) (doc : List (Str × JVal))
    (intendedFor : List Str) (b0 : Str) : List (Str × JVal) × Bool :=
  let newData := newSidecarData doc intendedFor b0
  if newData = doc then (doc, false)
  else if dry then (doc, false)
  else (newData, true)

/-- The glob suffix `_bold.nii.gz` (source line 181). -/
def boldSuf : Str := ['_', 'b', 'o', 'l', 'd', '.', 'n', 'i', 'i', '.', 'g', 'z']

/-- Suffix test. -/
def isSuf (p s : Str) : Bool := isPre p.reverse s.reverse

/-- Whether a func/ file name matches `glob("*_bold.nii.gz")`: `*` matches
any run of characters but not a leading dot. -/
def isBoldName (n : Str) : Bool := isSuf boldSuf n && !(isPre ['.'] n)

/-- The scheme marker `bids::` (source line 183). -/
def bidsMark : Str := ['b', 'i', 'd', 's', ':', ':']

/-- The path segment `/func/`. -/
def funcSeg : Str := ['/', 'f', 'u', 'n', 'c', '/']

/-- One `IntendedFor` entry (source lines 182-186): the scheme marker
followed by the path of the bold file relative to the dataset root with
forward slashes, i.e. `bids::<subject>/<session>/func/<name>`. -/
def intendedForEntry (subject ses n : Str) : Str :=
  bidsMark ++ subject ++ ['/'] ++ ses ++ funcSeg ++ n

/-- The computed `IntendedFor` list (source lines 180-186): bold files of
the session's func/ directory, sorted, each turned into a dataset-relative
reference. -/
def intendedForOf (subject ses : Str) (funcNames : List Str) : List Str :=
  (sortStr (funcNames.filter isBoldName)).map (intendedForEntry subject ses)

theorem strLe_total (a b : Str) : strLe a b = true ∨ strLe b a = true := by
  induction a generalizing b with
  | nil => exact Or.inl rfl
  | cons x xs ih =>
    cases b with
    | nil => exact Or.inr rfl
    | cons y ys =>
      show strLe (x :: xs) (y :: ys) = true ∨ strLe (y :: ys) (x :: xs) = true
      unfold strLe
      by_cases hxy : x.toNat = y.toNat
      · rw [if_pos hxy, if_pos hxy.symm]
        exact ih ys
      · rw [if_neg hxy, if_neg (fun h => hxy h.symm)]
        rcases Nat.lt_or_ge x.toNat y.toNat with h | h
        · exact Or.inl (by simpa using h)
        · exact Or.inr (by simp; omega)

theorem strLe_trans {a b c : Str} (h1 : strLe a b = true) (h2 : strLe b c = true) :
    strLe a c = true := by
  induction a generalizing b c with
  | nil => rfl
  | cons x xs ih =>
    cases b with
    | nil => simp [strLe] at h1
    | cons y ys =>
      cases c with
      | nil => simp [strLe] at h2
      | cons z zs =>
        unfold strLe at h1 h2 ⊢
        by_cases hxy : x.toNat = y.toNat
        · rw [if_pos hxy] at h1
          by_cases hyz : y.toNat = z.toNat
          · rw [if_pos hyz] at h2
            rw [if_pos (hxy.trans hyz)]
            exact ih h1 h2
          · rw [if_neg hyz] at h2
            rw [if_neg (by omega : ¬ x.toNat = z.toNat), hxy]
            exact h2
        · rw [if_neg hxy] at h1
          simp only [decide_eq_true_eq] at h1
          by_cases hyz : y.toNat = z.toNat
          · rw [if_neg (by omega : ¬ x.toNat = z.toNat)]
            simp
            omega
          · rw [if_neg hyz] at h2
            simp only [decide_eq_true_eq] at h2
            rw [if_neg (by omega : ¬ x.toNat = z.toNat)]
            simp
            omega

theorem mem_insertStr {x a : Str} {l : List Str} :
    a ∈ insertStr x l ↔ a = x ∨ a ∈ l := by
  induction l with
  | nil => simp [insertStr]
  | cons y ys ih =>
    unfold insertStr
    by_cases h : strLe x y = true
    · rw [if_pos h]
      simp
    · rw [if_neg h]
      simp only [List.mem_cons, ih]
      tauto

theorem insertStr_perm (x : Str) (l : List Str) : List.Perm (insertStr x l) (x :: l) := by
  induction l with
  | nil => simp [insertStr]
  | cons y ys ih =>
    unfold insertStr
    by_cases h : strLe x y = true
    · rw [if_pos h]
    · rw [if_neg h]
      exact (ih.cons y).trans (List.Perm.swap x y ys)

theorem sortStr_perm (l : List Str) : List.Perm (sortStr l) l := by
  induction l with
  | nil => rfl
  | cons x xs ih => exact (insertStr_perm x (sortStr xs)).trans (ih.cons x)

theorem mem_sortStr {a : Str} {l : List Str} : a ∈ sortStr l ↔ a ∈ l :=
  (sortStr_perm l).mem_iff

theorem insertStr_pairwise {x : Str} {l : List Str}
    (h : List.Pairwise (fun a b => strLe a b = true) l) :
    List.Pairwise (fun a b => strLe a b = true) (insertStr x l) := by
  induction l with
  | nil => simp [insertStr]
  | cons y ys ih =>
    unfold insertStr
    rcases List.pairwise_cons.mp h with ⟨hy, hys⟩
    by_cases hxy : strLe x y = true
    · rw [if_pos hxy]
      refine List.pairwise_cons.mpr ⟨?_, h⟩
      intro b hb
      rcases List.mem_cons.mp hb with hb | hb
      · exact hb ▸ hxy
      · exact strLe_trans hxy (hy b hb)
    · rw [if_neg hxy]
      refine List.pairwise_cons.mpr ⟨?_, ih hys⟩
      intro b hb
      rcases mem_insertStr.mp hb with hb | hb
      · rcases strLe_total x y with h1 | h1
        · exact absurd h1 hxy
        · rw [hb]
          exact h1
      · exact hy b hb

theorem sortStr_pairwise (l : List Str) :
    List.Pairwise (fun a b => strLe a b = true) (sortStr l) := by
  induction l with
  | nil => exact List.Pairwise.nil
  | cons x xs ih => exact insertStr_pairwise ih

theorem sortStr_nodup {l : List Str} (h : l.Nodup) : (sortStr l).Nodup :=
  ((sortStr_perm l).nodup_iff).mpr h

theorem existsName_iff {st : List Entry} {n : Str} :
    existsName st n = true ↔ ∃ e ∈ st, e.1 = n := by
  simp [existsName, List.any_eq_true]

theorem isFileN_iff {st : List Entry} {n : Str} :
    isFileN st n = true ↔ ∃ e ∈ st, e.1 = n ∧ e.2 = false := by
  simp [isFileN, List.any_eq_true]

theorem mem_namesOf {st : List Entry} {e : Entry} (h : e ∈ st) : e.1 ∈ namesOf st :=
  List.mem_map_of_mem Prod.fst h

theorem mem_eraseName {st : List Entry} {n : Str} {e : Entry}
    (h : e ∈ eraseName st n) : e ∈ st := by
  induction st with
  | nil => simp [eraseName] at h
  | cons f rest ih =>
    unfold eraseName at h
    by_cases hf : f.1 = n
    · rw [if_pos hf] at h
      exact List.mem_cons_of_mem f h
    · rw [if_neg hf] at h
      rcases List.mem_cons.mp h with h | h
      · exact h ▸ List.mem_cons_self f rest
      · exact List.mem_cons_of_mem f (ih h)

theorem eraseName_names_sublist (st : List Entry) (n : Str) :
    List.Sublist (namesOf (eraseName st n)) (namesOf st) := by
  induction st with
  | nil => simp [eraseName, namesOf]
  | cons f rest ih =>
    unfold eraseName
    by_cases hf : f.1 = n
    · rw [if_pos hf]
      exact List.sublist_cons_self f.1 (namesOf rest)
    · rw [if_neg hf]
      exact ih.cons₂ f.1

theorem mem_eraseName_ne {st : List Entry} {n : Str} (hnd : (namesOf st).Nodup)
    {e : Entry} (h : e ∈ eraseName st n) : e ∈ st ∧ e.1 ≠ n := by
  refine ⟨mem_eraseName h, ?_⟩
  induction st with
  | nil => simp [eraseName] at h
  | cons f rest ih =>
    unfold eraseName at h
    rcases List.pairwise_cons.mp hnd with ⟨hf1, hrest⟩
    by_cases hf : f.1 = n
    · rw [if_pos hf] at h
      intro he
      exact hf1 e.1 (mem_namesOf h) (by rw [he, hf])
    · rw [if_neg hf] at h
      rcases List.mem_cons.mp h with h | h
      · rw [h]
        exact hf
      · exact ih hrest h

theorem existsName_eraseName {st : List Entry} {n d : Str}
    (h : existsName st d = true) (hne : d ≠ n) :
    existsName (eraseName st n) d = true := by
  induction st with
  | nil => simp [existsName] at h
  | cons f rest ih =>
    unfold eraseName
    rcases existsName_iff.mp h with ⟨e, he, he1⟩
    by_cases hf : f.1 = n
    · rw [if_pos hf]
      rcases List.mem_cons.mp he with hh | hh
      · exact absurd (show d = n by rw [← he1, hh]; exact hf) hne
      · exact existsName_iff.mpr ⟨e, hh, he1⟩
    · rw [if_neg hf]
      rcases List.mem_cons.mp he with hh | hh
      · exact existsName_iff.mpr ⟨f, List.mem_cons_self f _, by rw [← hh]; exact he1⟩
      · have hmem := ih (existsName_iff.mpr ⟨e, hh, he1⟩)
        rcases existsName_iff.mp hmem with ⟨e', he', he'1⟩
        exact existsName_iff.mpr ⟨e', List.mem_cons_of_mem f he', he'1⟩

theorem existsName_eq_false_iff {st : List Entry} {n : Str} :
    existsName st n = false ↔ n ∉ namesOf st := by
  rw [← Bool.not_eq_true, existsName_iff]
  simp [namesOf]

/-- The precondition of the amended idempotence claim: the file name
contains neither both legacy tokens nor one of the two self-recreating
strings `fieldmap21` / `fieldmap22`. -/
def goodName (n : Str) : Bool :=
  !(containsS pat1 n && containsS pat2 n) && !containsS pat21 n && !containsS pat22 n

theorem goodName_of_tokenFree {d : Str} (h1 : containsS pat1 d = false)
    (h2 : containsS pat2 d = false) : goodName d = true := by
  have h21 : containsS pat21 d = false := by
    by_contra hc
    rw [Bool.not_eq_false] at hc
    rw [containsS_of_isPre_ext (a := pat2) (by decide) hc] at h2
    simp at h2
  have h22 : containsS pat22 d = false := by
    by_contra hc
    rw [Bool.not_eq_false] at hc
    rw [containsS_of_isPre_ext (a := pat2) (by decide) hc] at h2
    simp at h2
  simp [goodName, h1, h21, h22]

theorem newName_none_of_tokenFree {n : Str} (h1 : containsS pat1 n = false)
    (h2 : containsS pat2 n = false) : newName n = none := by
  simp [newName, h1, h2]

theorem newName_some_token {n d : Str} (h : newName n = some d) :
    containsS pat1 n = true ∨ containsS pat2 n = true := by
  by_contra hc
  push_neg at hc
  rw [newName_none_of_tokenFree (Bool.not_eq_true _ ▸ hc.1) (Bool.not_eq_true _ ▸ hc.2)] at h
  simp at h

theorem newName_tokenFree {n d : Str} (hg : goodName n = true)
    (hnew : newName n = some d) :
    containsS pat1 d = false ∧ containsS pat2 d = false := by
  simp only [goodName, Bool.and_eq_true, Bool.not_eq_true', Bool.and_eq_false_iff] at hg
  unfold newName at hnew
  by_cases h1 : containsS pat1 n = true
  · rw [if_pos h1] at hnew
    have h2 : containsS pat2 n = false := by
      rcases hg.1.1 with h | h
      · rw [h] at h1; simp at h1
      · exact h
    have hd : d = replaceAll pat1 rep1 n := (Option.some_injective _ hnew).symm
    rw [hd]
    exact ⟨replaceAll_no_pat1_of_pat1 n, replaceAll_no_pat2_of_pat1 h2⟩
  · rw [if_neg h1] at hnew
    rw [Bool.not_eq_true] at h1
    by_cases h2 : containsS pat2 n = true
    · rw [if_pos h2] at hnew
      have hd : d = replaceAll pat2 rep2 n := (Option.some_injective _ hnew).symm
      rw [hd]
      exact ⟨replaceAll_no_pat1_of_pat2 h1 hg.1.2, replaceAll_no_pat2_of_pat2 hg.2⟩
    · rw [if_neg h2] at hnew
      simp at hnew

theorem renameStep_of_notFile {st : List Entry} {m : Str} (dry : Bool)
    (hf : isFileN st m = false) : renameStep dry st m = st := by
  simp [renameStep, hf]

theorem renameStep_of_none {st : List Entry} {m : Str} (dry : Bool)
    (hf : isFileN st m = true) (hnn : newName m = none) :
    renameStep dry st m = st := by
  simp [renameStep, hf, hnn]

theorem renameStep_of_collision {st : List Entry} {m dst : Str} (dry : Bool)
    (hf : isFileN st m = true) (hnn : newName m = some dst)
    (hex : existsName st dst = true) : renameStep dry st m = st := by
  simp [renameStep, hf, hnn, hex]

theorem renameStep_of_rename {st : List Entry} {m dst : Str}
    (hf : isFileN st m = true) (hnn : newName m = some dst)
    (hex : existsName st dst = false) :
    renameStep false st m = (dst, false) :: eraseName st m := by
  simp [renameStep, hf, hnn, hex]

/-- Invariant carried through the rename fold: names are distinct, every
entry name satisfies the amended-claim precondition, and every regular file
whose name still holds a token is either not yet processed (its name is in
the remaining list `R`) or blocked by an existing destination. -/
def blockedInv (st : List Entry) (R : List Str) : Prop :=
  (namesOf st).Nodup ∧
  (∀ e ∈ st, goodName e.1 = true) ∧
  (∀ e ∈ st, e.2 = false → ∀ d, newName e.1 = some d →
    (e.1 ∈ R ∨ existsName st d = true))

theorem blockedInv_step {st : List Entry} {m : Str} {R : List Str}
    (h : blockedInv st (m :: R)) : blockedInv (renameStep false st m) R := by
  obtain ⟨hnd, hgood, hblk⟩ := h
  by_cases hf : isFileN st m = true
  · cases hnn : newName m with
    | none =>
      rw [renameStep_of_none false hf hnn]
      refine ⟨hnd, hgood, ?_⟩
      intro e he hef d hd
      rcases hblk e he hef d hd with hmem | hex
      · rcases List.mem_cons.mp hmem with hh | hh
        · rw [hh, hnn] at hd
          simp at hd
        · exact Or.inl hh
      · exact Or.inr hex
    | some dst =>
      by_cases hex : existsName st dst = true
      · rw [renameStep_of_collision false hf hnn hex]
        refine ⟨hnd, hgood, ?_⟩
        intro e he hef d hd
        rcases hblk e he hef d hd with hmem | hex2
        · rcases List.mem_cons.mp hmem with hh | hh
          · rw [hh, hnn] at hd
            have hdd : d = dst := by
              injection hd with hdd
              exact hdd.symm
            rw [hdd]
            exact Or.inr hex
          · exact Or.inl hh
        · exact Or.inr hex2
      · rw [Bool.not_eq_true] at hex
        rw [renameStep_of_rename hf hnn hex]
        obtain ⟨em, hem, hem1, _⟩ := isFileN_iff.mp hf
        have hgm : goodName m = true := hem1 ▸ hgood em hem
        have hdtf := newName_tokenFree hgm hnn
        have hdgood : goodName dst = true := goodName_of_tokenFree hdtf.1 hdtf.2
        refine ⟨?_, ?_, ?_⟩
        · show (dst :: namesOf (eraseName st m)).Nodup
          refine List.nodup_cons.mpr ⟨?_, hnd.sublist (eraseName_names_sublist st m)⟩
          intro hmem
          rcases List.mem_map.mp hmem with ⟨e, he, he1⟩
          have := existsName_eq_false_iff.mp hex
          exact this (he1 ▸ mem_namesOf (mem_eraseName he))
        · intro e he
          rcases List.mem_cons.mp he with hh | hh
          · rw [hh]
            exact hdgood
          · exact hgood e (mem_eraseName hh)
        · intro e he hef d hd
          rcases List.mem_cons.mp he with hh | hh
          · rw [hh] at hd
            rw [newName_none_of_tokenFree hdtf.1 hdtf.2] at hd
            simp at hd
          · obtain ⟨hest, hene⟩ := mem_eraseName_ne hnd hh
            rcases hblk e hest hef d hd with hmem | hex2
            · rcases List.mem_cons.mp hmem with hh2 | hh2
              · exact absurd hh2 hene
              · exact Or.inl hh2
            · have hdtf2 := newName_tokenFree (hgood e hest) hd
              have hmtok := newName_some_token hnn
              have hdm : d ≠ m := by
                intro hdm
                rw [hdm] at hdtf2
                rcases hmtok with ht | ht
                · rw [ht] at hdtf2
                  simp at hdtf2
                · rw [ht] at hdtf2
                  simp at hdtf2
              refine Or.inr (existsName_iff.mpr ?_)
              rcases existsName_iff.mp (existsName_eraseName hex2 hdm) with ⟨e', he', he'1⟩
              exact ⟨e', List.mem_cons_of_mem _ he', he'1⟩
  · rw [Bool.not_eq_true] at hf
    rw [renameStep_of_notFile false hf]
    refine ⟨hnd, hgood, ?_⟩
    intro e he hef d hd
    rcases hblk e he hef d hd with hmem | hex
    · rcases List.mem_cons.mp hmem with hh | hh
      · exfalso
        have : isFileN st m = true := isFileN_iff.mpr ⟨e, he, hh, hef⟩
        rw [this] at hf
        simp at hf
      · exact Or.inl hh
    · exact Or.inr hex

theorem blockedInv_foldl :
    ∀ (R : List Str) (st : List Entry), blockedInv st R →
      blockedInv (R.foldl (renameStep false) st) [] := by
  intro R
  induction R with
  | nil => intro st h; exact h
  | cons m R ih =>
    intro st h
    exact ih (renameStep false st m) (blockedInv_step h)

theorem renameStep_fixed {F : List Entry}
    (hfix : ∀ e ∈ F, e.2 = false → ∀ d, newName e.1 = some d →
      existsName F d = true) (m : Str) : renameStep false F m = F := by
  by_cases hf : isFileN F m = true
  · obtain ⟨e, he, he1, he2⟩ := isFileN_iff.mp hf
    cases hnn : newName m with
    | none => exact renameStep_of_none false hf hnn
    | some dst =>
      have hex : existsName F dst = true := hfix e he he2 dst (by rw [he1]; exact hnn)
      exact renameStep_of_collision false hf hnn hex
  · exact renameStep_of_notFile false (Bool.not_eq_true _ ▸ hf)

theorem foldl_fixed {F : List Entry}
    (hfix : ∀ e ∈ F, e.2 = false → ∀ d, newName e.1 = some d →
      existsName F d = true) :
    ∀ L : List Str, L.foldl (renameStep false) F = F := by
  intro L
  induction L with
  | nil => rfl
  | cons m L ih =>
    show (L.foldl (renameStep false) (renameStep false F m)) = F
    rw [renameStep_fixed hfix m]
    exact ih

/-- Under the amended-claim precondition the rename pass over one fmap
directory is idempotent: a second run changes nothing. -/
theorem rename_dir_idem {st : List Entry} (hnd : (namesOf st).Nodup)
    (hgood : ∀ e ∈ st, goodName e.1 = true) :
    rename_fieldmap_files_dir false (rename_fieldmap_files_dir false st) =
      rename_fieldmap_files_dir false st := by
  have hinv0 : blockedInv st (sortStr (namesOf st)) := by
    refine ⟨hnd, hgood, ?_⟩
    intro e he _ d _
    exact Or.inl (mem_sortStr.mpr (mem_namesOf he))
  have hinvF := blockedInv_foldl _ _ hinv0
  obtain ⟨_, _, hblkF⟩ := hinvF
  have hfix : ∀ e ∈ (sortStr (namesOf st)).foldl (renameStep false) st,
      e.2 = false → ∀ d, newName e.1 = some d →
      existsName ((sortStr (namesOf st)).foldl (renameStep false) st) d = true := by
    intro e he hef d hd
    rcases hblkF e he hef d hd with hmem | hex
    · simp at hmem
    · exact hex
  show rename_fieldmap_files_dir false ((sortStr (namesOf st)).foldl (renameStep false) st) =
    (sortStr (namesOf st)).foldl (renameStep false) st
  exact foldl_fixed hfix _

theorem iterExplicit_spec (entries : List Entry) :
    ∀ l : List Str, iterExplicit entries l =
      (l.filter (fun s => isDirN entries s),
       l.filter (fun s => !(isDirN entries s))) := by
  intro l
  induction l with
  | nil => rfl
  | cons s rest ih =>
    show (if isDirN entries s then ((iterExplicit entries rest).1.cons s,
        (iterExplicit entries rest).2)
      else ((iterExplicit entries rest).1, (iterExplicit entries rest).2.cons s)) = _
    rw [ih]
    by_cases h : isDirN entries s = true
    · rw [if_pos h]
      simp [List.filter_cons, h]
    · rw [if_neg h]
      rw [Bool.not_eq_true] at h
      simp [List.filter_cons, h]

theorem mem_autoDiscover {entries : List Entry} {n : Str} :
    n ∈ autoDiscover entries ↔
      ((∃ e ∈ entries, e.1 = n) ∧ isPre sesPre n = true ∧ isDirN entries n = true) := by
  unfold autoDiscover
  rw [List.mem_filter, mem_sortStr]
  simp only [List.mem_map, List.mem_filter]
  constructor
  · rintro ⟨⟨e, ⟨he, hpre⟩, he1⟩, hdir⟩
    exact ⟨⟨e, he, he1⟩, he1 ▸ hpre, hdir⟩
  · rintro ⟨⟨e, he, he1⟩, hpre, hdir⟩
    exact ⟨⟨e, ⟨he, he1 ▸ hpre⟩, he1⟩, hdir⟩

/-- C8: session resolution.  With an explicit nonempty list, exactly the
existing requested session directories are yielded (in request order) and
exactly the missing ones are reported; with no list, exactly the `ses-`
prefixed subdirectories are produced, in lexicographic order. -/
theorem claim_C8 : ∀ (entries : List Entry) (l : List Str), l ≠ [] →
    (iter_session_paths entries (some l)).1 =
        l.filter (fun s => isDirN entries s) ∧
    (iter_session_paths entries (some l)).2 =
        l.filter (fun s => !(isDirN entries s)) ∧
    (∀ n, n ∈ (iter_session_paths entries none).1 ↔
      ((∃ e ∈ entries, e.1 = n) ∧ isPre sesPre n = true ∧ isDirN entries n = true)) ∧
    List.Pairwise (fun a b => strLe a b = true) (iter_session_paths entries none).1 := by
  intro entries l hl
  have hne : l.isEmpty = false := by
    cases l with
    | nil => exact absurd rfl hl
    | cons x xs => rfl
  refine ⟨?_, ?_, ?_, ?_⟩
  · show (if l.isEmpty then (autoDiscover entries, ([] : List Str))
      else iterExplicit entries l).1 = _
    rw [hne]
    simp only [Bool.false_eq_true, if_false, iterExplicit_spec]
  · show (if l.isEmpty then (autoDiscover entries, ([] : List Str))
      else iterExplicit entries l).2 = _
    rw [hne]
    simp only [Bool.false_eq_true, if_false, iterExplicit_spec]
  · intro n
    exact mem_autoDiscover
  · exact List.Pairwise.sublist (List.filter_sublist _) (sortStr_pairwise _)

/-- Example subject-directory contents for the session-resolution witness:
one real session directory, one regular file whose name looks like a
session, one unrelated directory. -/
def exSubjEntries : List Entry :=
  [(sesPre ++ ['0', '0', '1'], true), (sesPre ++ ['x'], false), (['f', 'o', 'o'], true)]

/-- Example explicit session request: one existing, one missing. -/
def exSessionsReq : List Str := [sesPre ++ ['0', '0', '1'], sesPre ++ ['0', '0', '2']]

/-- Witness for C8 at a concrete subject directory and request list. -/
theorem claim_C8_witness :
    (iter_session_paths exSubjEntries (some exSessionsReq)).1 =
        exSessionsReq.filter (fun s => isDirN exSubjEntries s) ∧
    (iter_session_paths exSubjEntries (some exSessionsReq)).2 =
        exSessionsReq.filter (fun s => !(isDirN exSubjEntries s)) ∧
    ((sesPre ++ ['0', '0', '1']) ∈ (iter_session_paths exSubjEntries none).1 ↔
      ((∃ e ∈ exSubjEntries, e.1 = sesPre ++ ['0', '0', '1']) ∧
        isPre sesPre (sesPre ++ ['0', '0', '1']) = true ∧
        isDirN exSubjEntries (sesPre ++ ['0', '0', '1']) = true)) :=
  ⟨(claim_C8 exSubjEntries exSessionsReq (by decide)).1,
   (claim_C8 exSubjEntries exSessionsReq (by decide)).2.1,
   (claim_C8 exSubjEntries exSessionsReq (by decide)).2.2.1 (sesPre ++ ['0', '0', '1'])⟩

/-- C10: an empty explicit session list is falsy in Python, so it selects
the auto-discovery branch, exactly like passing no list at all. -/
theorem claim_C10 : ∀ entries : List Entry,
    iter_session_paths entries (some []) = iter_session_paths entries none := by
  intro entries
  rfl

/-- C9: `normalize_subject` / `normalize_session` are idempotent and are
the identity on already-prefixed tokens. -/
theorem claim_C9 : ∀ s : Str,
    normalize_subject (normalize_subject s) = normalize_subject s ∧
    normalize_session (normalize_session s) = normalize_session s ∧
    (isPre subPre s = true → normalize_subject s = s) ∧
    (isPre sesPre s = true → normalize_session s = s) := by
  intro s
  refine ⟨?_, ?_, ?_, ?_⟩
  · unfold normalize_subject
    by_cases h : isPre subPre s = true
    · rw [if_pos h, if_pos h]
    · rw [if_neg h, if_pos (isPre_append_self subPre s)]
  · unfold normalize_session
    by_cases h : isPre sesPre s = true
    · rw [if_pos h, if_pos h]
    · rw [if_neg h, if_pos (isPre_append_self sesPre s)]
  · intro h
    unfold normalize_subject
    rw [if_pos h]
  · intro h
    unfold normalize_session
    rw [if_pos h]

/-- Witness for C9 at already-prefixed tokens. -/
theorem claim_C9_witness :
    normalize_subject (subPre ++ ['0', '1']) = subPre ++ ['0', '1'] ∧
    normalize_session (sesPre ++ ['0', '1']) = sesPre ++ ['0', '1'] :=
  ⟨(claim_C9 (subPre ++ ['0', '1'])).2.2.1 (by decide),
   (claim_C9 (sesPre ++ ['0', '1'])).2.2.2 (by decide)⟩

theorem renameStep_dry (st : List Entry) (m : Str) : renameStep true st m = st := by
  by_cases hf : isFileN st m = true
  · cases hnn : newName m with
    | none => exact renameStep_of_none true hf hnn
    | some dst =>
      by_cases hex : existsName st dst = true
      · exact renameStep_of_collision true hf hnn hex
      · simp [renameStep, hf, hnn, hex]
  · exact renameStep_of_notFile true (Bool.not_eq_true _ ▸ hf)

theorem rename_dir_dry (st : List Entry) : rename_fieldmap_files_dir true st = st := by
  show (sortStr (namesOf st)).foldl (renameStep true) st = st
  generalize sortStr (namesOf st) = L
  induction L generalizing st with
  | nil => rfl
  | cons m L ih =>
    show L.foldl (renameStep true) (renameStep true st m) = st
    rw [renameStep_dry st m]
    exact ih st

/-- C2: dry-run never mutates.  For every fmap directory tree, every parsed
scans table, and every sidecar document, running any pass with
`dry_run = True` returns the input state unchanged and reports that no
write happened. -/
theorem claim_C2 : ∀ (tree : List (List Entry)) (st : List Entry) (t : Table)
    (doc : List (Str × JVal)) (intendedFor : List Str) (b0 : Str),
    rename_fieldmap_files true tree = tree ∧
    rename_fieldmap_files_dir true st = st ∧
    update_scans_tsv_file true t = (t, false) ∧
    update_fieldmap_json_doc true doc intendedFor b0 = (doc, false) := by
  intro tree st t doc intendedFor b0
  refine ⟨?_, rename_dir_dry st, ?_, ?_⟩
  · unfold rename_fieldmap_files
    induction tree with
    | nil => rfl
    | cons d rest ih =>
      rw [List.map_cons, rename_dir_dry d, ih]
  · unfold update_scans_tsv_file
    cases hidx : t.header.findIdx? (fun h => decide (h = fnameKey)) with
    | none => rfl
    | some i =>
      by_cases hch : t.rows.map
          (fun row => row.set i (replaceCell (row.getD i []))) = t.rows
      · simp [hch]
      · simp only [if_neg hch]
        rfl
  · unfold update_fieldmap_json_doc
    by_cases hch : newSidecarData doc intendedFor b0 = doc
    · simp [hch]
    · simp only [if_neg hch]
      rfl

/-- Counterexample to C6 as stated: the file name `fieldmap1fieldmap2`
contains `fieldmap2`, yet the computed new name is NOT the one obtained by
replacing `fieldmap2` with `fieldmap` — the `elif` gives `fieldmap1`
precedence, so the `fieldmap2` occurrence survives into the new name. -/
theorem claim_C6_counterexample :
    containsS pat2 (pat1 ++ pat2) = true ∧
    newName (pat1 ++ pat2) ≠ some (replaceAll pat2 rep2 (pat1 ++ pat2)) := by
  constructor
  · decide
  · decide

/-- C6 amended: a name containing `fieldmap1` has every such occurrence
replaced by `magnitude`; a name containing `fieldmap2` BUT NOT `fieldmap1`
has every `fieldmap2` occurrence replaced by `fieldmap`; a name containing
neither token is left untouched.  At most one rule fires by construction of
the `elif` chain. -/
theorem claim_C6_amended : ∀ n : Str,
    (containsS pat1 n = true → newName n = some (replaceAll pat1 rep1 n)) ∧
    (containsS pat1 n = false → containsS pat2 n = true →
      newName n = some (replaceAll pat2 rep2 n)) ∧
    (containsS pat1 n = false → containsS pat2 n = false → newName n = none) := by
  intro n
  refine ⟨?_, ?_, ?_⟩
  · intro h1
    simp [newName, h1]
  · intro h1 h2
    simp [newName, h1, h2]
  · intro h1 h2
    simp [newName, h1, h2]

/-- Witness for the amended C6, discharging each of the three cases at a
concrete file name. -/
theorem claim_C6_witness :
    newName (pat1 ++ ['x']) = some (replaceAll pat1 rep1 (pat1 ++ ['x'])) ∧
    newName (pat2 ++ ['x']) = some (replaceAll pat2 rep2 (pat2 ++ ['x'])) ∧
    newName ['x'] = none :=
  ⟨(claim_C6_amended (pat1 ++ ['x'])).1 (by decide),
   (claim_C6_amended (pat2 ++ ['x'])).2.1 (by decide) (by decide),
   (claim_C6_amended ['x']).2.2 (by decide) (by decide)⟩

/-- Counterexample to C1 as stated: a tree whose only fmap file is named
`fieldmap21`.  The first run renames it to `fieldmap1` (replacing
`fieldmap2` leaves the trailing `1`), so a token remains after the first
run and the second run renames again (to `magnitude`). -/
theorem claim_C1_counterexample :
    (namesOf [(pat21, false)]).Nodup ∧
    containsS pat1 ((namesOf
      (rename_fieldmap_files_dir false [(pat21, false)])).getD 0 []) = true ∧
    rename_fieldmap_files false (rename_fieldmap_files false [[(pat21, false)]]) ≠
      rename_fieldmap_files false [[(pat21, false)]] := by
  refine ⟨by decide, by decide, by decide⟩

/-- C1 amended: the rename pass is idempotent on every tree in which, per
fmap directory, entry names are distinct and no name contains both legacy
tokens nor one of the self-recreating strings `fieldmap21` / `fieldmap22`.
(After the first run every file name that still holds a token is exactly a
collision-skipped original, and its destination still exists, so the
second run performs no rename.) -/
theorem claim_C1_amended : ∀ tree : List (List Entry),
    (∀ st ∈ tree, (namesOf st).Nodup) →
    (∀ st ∈ tree, ∀ e ∈ st, goodName e.1 = true) →
    rename_fieldmap_files false (rename_fieldmap_files false tree) =
      rename_fieldmap_files false tree := by
  intro tree hnd hgood
  unfold rename_fieldmap_files
  induction tree with
  | nil => rfl
  | cons st rest ih =>
    rw [List.map_cons, List.map_cons,
      rename_dir_idem (hnd st (List.mem_cons_self st rest))
        (hgood st (List.mem_cons_self st rest))]
    have := ih (fun d hd => hnd d (List.mem_cons_of_mem st hd))
      (fun d hd => hgood d (List.mem_cons_of_mem st hd))
    rw [this]

/-- Example good fmap directory for the C1 witness: a token-bearing file, a
collision-free layout, and a subdirectory. -/
def exGoodDir : List Entry :=
  [(pat1 ++ ['.', 'n', 'i', 'i'], false), (['n', 'o', 't', 'e', 's'], true)]

/-- Witness for the amended C1 at a concrete tree. -/
theorem claim_C1_witness :
    (∀ st ∈ [exGoodDir], (namesOf st).Nodup) ∧
    (∀ st ∈ [exGoodDir], ∀ e ∈ st, goodName e.1 = true) ∧
    rename_fieldmap_files false (rename_fieldmap_files false [exGoodDir]) =
      rename_fieldmap_files false [exGoodDir] :=
  ⟨by decide, by decide, claim_C1_amended [exGoodDir] (by decide) (by decide)⟩

/-- C7: in apply mode, a rename whose destination already exists is skipped
(state unchanged, no error) and processing continues with the remaining
files; an OS-level rename failure on a non-colliding rename is not caught
and aborts the whole pass with the error. -/
theorem claim_C7 : ∀ (ok : Str → Str → Bool) (st : List Entry) (n dst : Str)
    (L : List Str), isFileN st n = true → newName n = some dst →
    ((existsName st dst = true →
       renameStepE ok false st n = Except.ok st ∧
       renameListE ok false st (n :: L) = renameListE ok false st L) ∧
     (existsName st dst = false → ok n dst = false →
       renameStepE ok false st n = Except.error (RenameError.osError n dst) ∧
       renameListE ok false st (n :: L) =
         Except.error (RenameError.osError n dst))) := by
  intro ok st n dst L hf hnn
  constructor
  · intro hex
    have hst : renameStepE ok false st n = Except.ok st := by
      simp [renameStepE, hf, hnn, hex]
    refine ⟨hst, ?_⟩
    show List.foldlM (renameStepE ok false) st (n :: L) =
      List.foldlM (renameStepE ok false) st L
    rw [List.foldlM_cons, hst]
    rfl
  · intro hex hok
    have hst : renameStepE ok false st n =
        Except.error (RenameError.osError n dst) := by
      simp [renameStepE, hf, hnn, hex, hok]
    refine ⟨hst, ?_⟩
    show List.foldlM (renameStepE ok false) st (n :: L) =
      Except.error (RenameError.osError n dst)
    rw [List.foldlM_cons, hst]
    rfl

/-- An oracle under which every OS rename fails. -/
def okNone : Str → Str → Bool := fun _ _ => false

/-- Directory with a collision: `fieldmap1` and its target `magnitude`. -/
def exColDir : List Entry := [(pat1, false), (rep1, false)]

/-- Directory with a non-colliding rename: just `fieldmap1`. -/
def exErrDir : List Entry := [(pat1, false)]

/-- Witness for C7: the collision is skipped even when every OS rename
would fail, and the non-colliding rename aborts with the error. -/
theorem claim_C7_witness :
    (renameStepE okNone false exColDir pat1 = Except.ok exColDir ∧
     renameListE okNone false exColDir [pat1] =
       renameListE okNone false exColDir []) ∧
    (renameStepE okNone false exErrDir pat1 =
       Except.error (RenameError.osError pat1 rep1) ∧
     renameListE okNone false exErrDir [pat1] =
       Except.error (RenameError.osError pat1 rep1)) :=
  ⟨(claim_C7 okNone exColDir pat1 rep1 [] (by decide) (by decide)).1 (by decide),
   (claim_C7 okNone exErrDir pat1 rep1 [] (by decide) (by decide)).2
     (by decide) (by decide)⟩

theorem getKey_setKey_same (doc : List (Str × JVal)) (k : Str) (v : JVal) :
    getKey (setKey doc k v) k = some v := by
  induction doc with
  | nil => simp [setKey, getKey]
  | cons e rest ih =>
    unfold setKey
    by_cases h : e.1 = k
    · rw [if_pos h]
      simp [getKey]
    · rw [if_neg h]
      unfold getKey
      rw [if_neg h]
      exact ih

theorem getKey_setKey_ne (doc : List (Str × JVal)) {k k' : Str} (v : JVal)
    (h : k' ≠ k) : getKey (setKey doc k v) k' = getKey doc k' := by
  induction doc with
  | nil =>
    show (if k = k' then some v else none) = none
    rw [if_neg (fun hh => h hh.symm)]
  | cons e rest ih =>
    unfold setKey
    by_cases he : e.1 = k
    · rw [if_pos he]
      show (if k = k' then some v else getKey rest k') =
        if e.1 = k' then some e.2 else getKey rest k'
      rw [if_neg (fun hh => h hh.symm),
        if_neg (show ¬ e.1 = k' from by rw [he]; exact fun hh => h hh.symm)]
    · rw [if_neg he]
      show (if e.1 = k' then some e.2 else getKey (setKey rest k v) k') =
        if e.1 = k' then some e.2 else getKey rest k'
      by_cases he' : e.1 = k'
      · rw [if_pos he', if_pos he']
      · rw [if_neg he', if_neg he']
        exact ih

theorem setKey_eq_self {doc : List (Str × JVal)} {k : Str} {v : JVal}
    (h : getKey doc k = some v) : setKey doc k v = doc := by
  induction doc with
  | nil => simp [getKey] at h
  | cons e rest ih =>
    unfold getKey at h
    unfold setKey
    by_cases he : e.1 = k
    · rw [if_pos he] at h
      rw [if_pos he]
      have hv : v = e.2 := by
        injection h with h
        exact h.symm
      rw [hv, ← he]
    · rw [if_neg he] at h
      rw [if_neg he, ih h]

/-- C3: the sidecar update is a pure merge.  In the written document the
two owned keys hold exactly the computed values, every other key reads
exactly as in the original, and if both owned keys already hold the
computed values the file is not written (and the document is unchanged). -/
theorem claim_C3 : ∀ (doc : List (Str × JVal)) (intendedFor : List Str) (b0 : Str),
    getKey (newSidecarData doc intendedFor b0) keyIF =
        some (JVal.strArr intendedFor) ∧
    getKey (newSidecarData doc intendedFor b0) keyB0 = some (JVal.str b0) ∧
    (∀ k, k ≠ keyIF → k ≠ keyB0 →
      getKey (newSidecarData doc intendedFor b0) k = getKey doc k) ∧
    (∀ dry, (update_fieldmap_json_doc dry doc intendedFor b0).2 = true →
      (update_fieldmap_json_doc dry doc intendedFor b0).1 =
        newSidecarData doc intendedFor b0) ∧
    (getKey doc keyIF = some (JVal.strArr intendedFor) →
      getKey doc keyB0 = some (JVal.str b0) →
      update_fieldmap_json_doc false doc intendedFor b0 = (doc, false)) := by
  intro doc intendedFor b0
  refine ⟨?_, ?_, ?_, ?_, ?_⟩
  · unfold newSidecarData
    rw [getKey_setKey_ne _ _ (by decide), getKey_setKey_same]
  · unfold newSidecarData
    rw [getKey_setKey_same]
  · intro k hkIF hkB0
    unfold newSidecarData
    rw [getKey_setKey_ne _ _ hkB0, getKey_setKey_ne _ _ hkIF]
  · intro dry
    unfold update_fieldmap_json_doc
    by_cases hch : newSidecarData doc intendedFor b0 = doc
    · simp [hch]
    · cases dry with
      | false =>
        simp only [if_neg hch]
        intro _
        rfl
      | true =>
        simp only [if_neg hch]
        intro h
        simp at h
  · intro h1 h2
    have heq : newSidecarData doc intendedFor b0 = doc := by
      unfold newSidecarData
      rw [setKey_eq_self h1, setKey_eq_self h2]
    unfold update_fieldmap_json_doc
    simp [heq]

/-- Example sidecar whose owned keys already hold the computed values, plus
a third-party key. -/
def exDoc : List (Str × JVal) :=
  [(['E', 'c', 'h', 'o'], JVal.num 1),
   (keyIF, JVal.strArr [['a']]),
   (keyB0, JVal.str ['b', '0'])]

/-- Witness for C3: third-party keys read unchanged, and a document whose
owned keys already match is not written. -/
theorem claim_C3_witness :
    getKey (newSidecarData exDoc [['a']] ['b', '0']) ['E', 'c', 'h', 'o'] =
      getKey exDoc ['E', 'c', 'h', 'o'] ∧
    update_fieldmap_json_doc false exDoc [['a']] ['b', '0'] = (exDoc, false) :=
  ⟨(claim_C3 exDoc [['a']] ['b', '0']).2.2.1 ['E', 'c', 'h', 'o']
      (by decide) (by decide),
   (claim_C3 exDoc [['a']] ['b', '0']).2.2.2.2 (by decide) (by decide)⟩

theorem getD_set_ne {l : List Str} : ∀ {i j : Nat} {v : Str}, i ≠ j →
    (l.set i v).getD j [] = l.getD j [] := by
  induction l with
  | nil => intro i j v _; rfl
  | cons x xs ih =>
    intro i j v h
    cases i with
    | zero =>
      cases j with
      | zero => exact absurd rfl h
      | succ j' => rfl
    | succ i' =>
      cases j with
      | zero => rfl
      | succ j' =>
        show (xs.set i' v).getD j' [] = xs.getD j' []
        exact ih (fun hh => h (by rw [hh]))

theorem getD_set_self {l : List Str} : ∀ {i : Nat} {v : Str}, i < l.length →
    (l.set i v).getD i [] = v := by
  induction l with
  | nil => intro i v h; simp at h
  | cons x xs ih =>
    intro i v h
    cases i with
    | zero => rfl
    | succ i' =>
      show (xs.set i' v).getD i' [] = v
      exact ih (by simpa using h)

theorem set_getD_eq (l : List Str) : ∀ i : Nat, l.set i (l.getD i []) = l := by
  induction l with
  | nil => intro i; rfl
  | cons x xs ih =>
    intro i
    cases i with
    | zero => rfl
    | succ i' =>
      show x :: xs.set i' (xs.getD i' []) = x :: xs
      rw [ih i']

theorem getD_mem {l : List (List Str)} : ∀ {i : Nat}, i < l.length →
    l.getD i [] ∈ l := by
  induction l with
  | nil => intro i h; simp at h
  | cons x xs ih =>
    intro i h
    cases i with
    | zero => exact List.mem_cons_self x xs
    | succ i' =>
      exact List.mem_cons_of_mem x (ih (by simpa using h))

theorem map_getD_rows (f : List Str → List Str) (hf : f [] = [])
    (rows : List (List Str)) : ∀ rI : Nat,
    (rows.map f).getD rI [] = f (rows.getD rI []) := by
  induction rows with
  | nil => intro rI; simp [hf]
  | cons row rest ih =>
    intro rI
    cases rI with
    | zero => rfl
    | succ rI' => exact ih rI'

theorem map_eq_self_of {α : Type} {f : α → α} {l : List α}
    (h : ∀ x ∈ l, f x = x) : l.map f = l := by
  induction l with
  | nil => rfl
  | cons x xs ih =>
    rw [List.map_cons, h x (List.mem_cons_self x xs),
      ih (fun y hy => h y (List.mem_cons_of_mem x hy))]

theorem of_map_eq_self {α : Type} {f : α → α} {l : List α}
    (h : l.map f = l) : ∀ x ∈ l, f x = x := by
  induction l with
  | nil => intro x hx; simp at hx
  | cons y ys ih =>
    rw [List.map_cons, List.cons.injEq] at h
    intro x hx
    rcases List.mem_cons.mp hx with hx | hx
    · rw [hx]
      exact h.1
    · exact ih h.2 x hx

theorem replaceCell_id {s : Str} (h1 : containsS pat1 s = false)
    (h2 : containsS pat2 s = false) : replaceCell s = s := by
  unfold replaceCell
  rw [replaceAll_of_not_contains h1, replaceAll_of_not_contains h2]

/-- C4: the scans-table update touches only the `filename` column: header
and row count are preserved, every cell outside the `filename` column reads
unchanged, every `filename` cell becomes its substituted value, and if no
`filename` cell holds a legacy token the file is not written (result is the
input with the written flag false). -/
theorem claim_C4 : ∀ t : Table,
    (update_scans_tsv_file false t).1.header = t.header ∧
    (update_scans_tsv_file false t).1.rows.length = t.rows.length ∧
    (∀ i, t.header.findIdx? (fun h => decide (h = fnameKey)) = some i →
      (∀ rI j, j ≠ i →
        ((update_scans_tsv_file false t).1.rows.getD rI []).getD j [] =
          (t.rows.getD rI []).getD j []) ∧
      (∀ rI, rI < t.rows.length → i < (t.rows.getD rI []).length →
        ((update_scans_tsv_file false t).1.rows.getD rI []).getD i [] =
          replaceCell ((t.rows.getD rI []).getD i [])) ∧
      ((∀ row ∈ t.rows, containsS pat1 (row.getD i []) = false ∧
          containsS pat2 (row.getD i []) = false) →
        update_scans_tsv_file false t = (t, false))) := by
  intro t
  cases hidx : t.header.findIdx? (fun h => decide (h = fnameKey)) with
  | none =>
    have hup : update_scans_tsv_file false t = (t, false) := by
      unfold update_scans_tsv_file
      rw [hidx]
    refine ⟨by rw [hup], by rw [hup], ?_⟩
    intro i hi
    simp at hi
  | some i0 =>
    by_cases hch : t.rows.map
        (fun row => row.set i0 (replaceCell (row.getD i0 []))) = t.rows
    · have hup : update_scans_tsv_file false t = (t, false) := by
        have hch2 : t.rows.map
            (fun row => row.set i0 (replaceCell (row[i0]?.getD []))) = t.rows := by
          simpa using hch
        unfold update_scans_tsv_file
        rw [hidx]
        simp [hch2]
      refine ⟨by rw [hup], by rw [hup], ?_⟩
      intro i hi
      have hi0 : i = i0 := by
        injection hi with hh
        exact hh.symm
      subst hi0
      refine ⟨?_, ?_, ?_⟩
      · intro rI j _
        rw [hup]
      · intro rI hrI hlen
        rw [hup]
        have hrow := of_map_eq_self hch (t.rows.getD rI []) (getD_mem hrI)
        have hcell := congrArg (fun l : List Str => l.getD i []) hrow
        simp only at hcell
        rw [getD_set_self hlen] at hcell
        exact hcell.symm
      · intro _
        exact hup
    · have hup : update_scans_tsv_file false t =
          ({ header := t.header,
             rows := t.rows.map
               (fun row => row.set i0 (replaceCell (row.getD i0 []))) }, true) := by
        unfold update_scans_tsv_file
        rw [hidx]
        simp only [if_neg hch]
        rfl
      refine ⟨by rw [hup], by rw [hup]; simp, ?_⟩
      intro i hi
      have hi0 : i = i0 := by
        injection hi with hh
        exact hh.symm
      subst hi0
      refine ⟨?_, ?_, ?_⟩
      · intro rI j hj
        rw [hup]
        show ((t.rows.map
          (fun row => row.set i (replaceCell (row.getD i [])))).getD rI []).getD j [] =
          (t.rows.getD rI []).getD j []
        rw [map_getD_rows _ rfl]
        exact getD_set_ne (fun hh => hj hh.symm)
      · intro rI hrI hlen
        rw [hup]
        show ((t.rows.map
          (fun row => row.set i (replaceCell (row.getD i [])))).getD rI []).getD i [] =
          replaceCell ((t.rows.getD rI []).getD i [])
        rw [map_getD_rows _ rfl]
        exact getD_set_self hlen
      · intro hno
        exfalso
        apply hch
        apply map_eq_self_of
        intro row hrow
        rw [replaceCell_id (hno row hrow).1 (hno row hrow).2, set_getD_eq]

/-- Example scans table with a legacy token in the `filename` column and a
second column. -/
def exTable : Table :=
  { header := [fnameKey, ['t', 'y', 'p', 'e']],
    rows := [[pat1 ++ ['.', 'n'], ['x']], [['c'], ['y']]] }

/-- Example scans table with no legacy token anywhere. -/
def exTableClean : Table :=
  { header := [fnameKey, ['t', 'y', 'p', 'e']],
    rows := [[['a'], ['x']]] }

/-- Witness for C4: a non-`filename` cell survives the write unchanged, and
a token-free table is not written. -/
theorem claim_C4_witness :
    ((update_scans_tsv_file false exTable).1.rows.getD 0 []).getD 1 [] =
      (exTable.rows.getD 0 []).getD 1 [] ∧
    update_scans_tsv_file false exTableClean = (exTableClean, false) :=
  ⟨((claim_C4 exTable).2.2 0 (by decide)).1 0 1 (by decide),
   ((claim_C4 exTableClean).2.2 0 (by decide)).2.2 (by decide)⟩

/-- Sorting full paths that share a fixed directory prefix orders them
exactly as sorting the bare file names, which justifies modelling
`sorted(glob(...))` as a sort on names. -/
theorem strLe_append_same (p : Str) : ∀ a b : Str,
    strLe (p ++ a) (p ++ b) = strLe a b := by
  induction p with
  | nil => intro a b; rfl
  | cons c cs ih =>
    intro a b
    show (if c.toNat = c.toNat then strLe (cs ++ a) (cs ++ b) else _) = strLe a b
    rw [if_pos rfl]
    exact ih a b

/-- C5: the computed `IntendedFor` list has exactly one entry per bold file
of the session's func/ directory, the underlying files are taken in
lexicographic order, and each entry is the scheme marker `bids::` followed
by the forward-slash dataset-relative path
`<subject>/<session>/func/<name>`. -/
theorem claim_C5 : ∀ (subject ses : Str) (funcNames : List Str),
    List.Perm (sortStr (funcNames.filter isBoldName)) (funcNames.filter isBoldName) ∧
    List.Pairwise (fun a b => strLe a b = true)
      (sortStr (funcNames.filter isBoldName)) ∧
    intendedForOf subject ses funcNames =
      (sortStr (funcNames.filter isBoldName)).map (intendedForEntry subject ses) ∧
    (∀ entry ∈ intendedForOf subject ses funcNames, ∃ n,
      (n ∈ funcNames ∧ isBoldName n = true) ∧
      entry = bidsMark ++ subject ++ ['/'] ++ ses ++ funcSeg ++ n) ∧
    (∀ n ∈ funcNames, isBoldName n = true →
      (bidsMark ++ subject ++ ['/'] ++ ses ++ funcSeg ++ n) ∈
        intendedForOf subject ses funcNames) := by
  intro subject ses funcNames
  refine ⟨sortStr_perm _, sortStr_pairwise _, rfl, ?_, ?_⟩
  · intro entry hentry
    rcases List.mem_map.mp hentry with ⟨n, hn, hn2⟩
    refine ⟨n, ?_, hn2.symm⟩
    have := mem_sortStr.mp hn
    exact ⟨(List.mem_filter.mp this).1, (List.mem_filter.mp this).2⟩
  · intro n hn hbold
    exact List.mem_map.mpr ⟨n, mem_sortStr.mpr (List.mem_filter.mpr ⟨hn, hbold⟩), rfl⟩

/-- Example func/ directory contents: two bold runs (given out of order),
one non-bold file. -/
def exFuncNames : List Str :=
  [['r', '2'] ++ boldSuf, ['r', '1'] ++ boldSuf, ['r', '1', '.', 't', 'x', 't']]

/-- Witness for C5 at a concrete session. -/
theorem claim_C5_witness :
    (∃ n, (n ∈ exFuncNames ∧ isBoldName n = true) ∧
      (intendedForOf subPre sesPre exFuncNames).getD 0 [] =
        bidsMark ++ subPre ++ ['/'] ++ sesPre ++ funcSeg ++ n) ∧
    (bidsMark ++ subPre ++ ['/'] ++ sesPre ++ funcSeg ++ (['r', '1'] ++ boldSuf)) ∈
      intendedForOf subPre sesPre exFuncNames :=
  ⟨(claim_C5 subPre sesPre exFuncNames).2.2.2.1
      ((intendedForOf subPre sesPre exFuncNames).getD 0 []) (by decide),
   (claim_C5 subPre sesPre exFuncNames).2.2.2.2 (['r', '1'] ++ boldSuf)
      (by decide) (by decide)⟩
